import Mathlib

/-!
Verification of the event-detection and segment-computation pipeline of
`lightning_trimmer.py` (functions `detect_bright_frames`,
`group_continuous_frames`, `calculate_and_merge_final_segments`).

Timestamps and brightness values are embedded as rationals (`ℚ`); the Python
source works with real-valued seconds and luma readings.  Configuration
globals (`BRIGHTNESS_THRESHOLD`, `PRE_ROLL_SECONDS`, `POST_ROLL_SECONDS`) and
the probed frame rate are passed as explicit parameters, matching the spec's
Configuration record.
-/

namespace LightningTrimmer

/-- A sample is a `(timestamp, brightness)` pair, as parsed from one matching
line of the analysis output. -/
abbrev Sample := ℚ × ℚ

/-- An event or segment is a closed time interval `(start, end)`. -/
abbrev Seg := ℚ × ℚ

/-! ### Threshold filter: `detect_bright_frames`

The Python loop appends `timestamp` to `bright_timestamps` whenever the
parsed `brightness > BRIGHTNESS_THRESHOLD` (strict).  We embed the loop as a
left fold over the already-parsed samples, accumulating the output list by
appending, exactly as the source does. -/

/-- Embedding of the accumulation loop of `detect_bright_frames`: for every
parsed sample, append its timestamp when `brightness > threshold`. -/
def detect_bright_frames (threshold : ℚ) (samples : List Sample) : List ℚ :=
  samples.foldl (fun acc s => if threshold < s.2 then acc ++ [s.1] else acc) []

/-! ### Event grouper: `group_continuous_frames` -/

/-- Embedding of the `for i in range(1, len(bright_timestamps))` loop of
`group_continuous_frames`.  `prev` is `bright_timestamps[i-1]`, `(cs, ce)` is
the current group's `(current_group_start, current_group_end)`; on a gap
larger than `maxGap` the current group is appended and a new one opened. -/
def groupAux (maxGap : ℚ) : ℚ → ℚ → ℚ → List ℚ → List Seg
  | _prev, cs, ce, [] => [(cs, ce)]
  | prev, cs, ce, t :: rest =>
      if t - prev ≤ maxGap then groupAux maxGap t cs t rest
      else (cs, ce) :: groupAux maxGap t t t rest

/-- Embedding of `group_continuous_frames`: empty input returns `[]`;
otherwise `max_gap = 1.5 / framerate` and the walk starts with a group whose
start and end are the first timestamp.  (For `framerate = 0` the Python code
raises `ZeroDivisionError` at `1.5 / framerate`; in `ℚ` the division totalises
to `0`, so evaluations at zero frame rate are not used.) -/
def group_continuous_frames (bright_timestamps : List ℚ) (framerate : ℚ) :
    List Seg :=
  match bright_timestamps with
  | [] => []
  | t0 :: rest => groupAux (3 / 2 / framerate) t0 t0 t0 rest

/-! ### Segment builder: `calculate_and_merge_final_segments` -/

/-- Embedding of the padding comprehension: candidate
`(max(0, start - PRE_ROLL_SECONDS), end + POST_ROLL_SECONDS)`. -/
def padSegment (preRoll postRoll : ℚ) (ev : Seg) : Seg :=
  (max 0 (ev.1 - preRoll), ev.2 + postRoll)

/-- Comparison used by `segments.sort(key=lambda x: x[0])`: the sort key is
the segment start only; ends are not compared. -/
abbrev startLE (a b : Seg) : Prop := a.1 ≤ b.1

/-- Embedding of `segments.sort(key=lambda x: x[0])`.  Python's `list.sort`
is a stable ascending sort on the key (here the segment start only); we embed
it as a stable insertion sort on the start, which computes the same list:
each element is inserted into the sorted remainder in front of the first
element whose start is not smaller, so equal-start elements keep their
original relative order. -/
def sortByStart (l : List Seg) : List Seg := List.insertionSort startLE l

/-- The sorted padded candidates: `segments` after the comprehension and the
`sort` call of `calculate_and_merge_final_segments`. -/
def sortedCandidates (event_groups : List Seg) (preRoll postRoll : ℚ) :
    List Seg :=
  sortByStart (event_groups.map (padSegment preRoll postRoll))

/-- Embedding of the merge sweep over `segments[1:]`: `cur` is
`(current_start, current_end)`; a candidate with `next_start <= current_end`
is absorbed (`current_end = max(current_end, next_end)`), otherwise the
running segment is appended to `merged` and the sweep restarts; the last
running segment is always appended. -/
def mergeAux : Seg → List Seg → List Seg
  | cur, [] => [cur]
  | cur, nxt :: rest =>
      if nxt.1 ≤ cur.2 then mergeAux (cur.1, max cur.2 nxt.2) rest
      else cur :: mergeAux nxt rest

/-- The merge sweep started from `segments[0]`, covering the source's two
early returns for an empty list. -/
def mergeStart : List Seg → List Seg
  | [] => []
  | c :: cs => mergeAux c cs

/-- Embedding of `calculate_and_merge_final_segments`: pad each event, sort
by start, then run the merge sweep from the first candidate.  An empty event
list yields `[]` (the source's early returns). -/
def calculate_and_merge_final_segments (event_groups : List Seg)
    (preRoll postRoll : ℚ) : List Seg :=
  mergeStart (sortedCandidates event_groups preRoll postRoll)

/-- Membership of a time point in a closed segment. -/
def inSeg (t : ℚ) (g : Seg) : Prop := g.1 ≤ t ∧ t ≤ g.2

/-- Replaces the start of the first interval of a list, used to state how the
grouper extends the current event backwards when unfolding its walk from the
left. -/
def setStart (t : ℚ) : List Seg → List Seg
  | [] => []
  | g :: tl => (t, g.2) :: tl

/-! ### Helper lemmas about the merge sweep -/

instance : IsTotal Seg startLE := ⟨fun a b => le_total a.1 b.1⟩

instance : IsTrans Seg startLE := ⟨fun _ _ _ => le_trans⟩

instance : IsTrans Seg (fun a b : Seg => a.1 ≤ b.1 ∧ a.2 < b.1) :=
  ⟨fun _ _ _ h1 h2 => ⟨le_trans h1.1 h2.1, lt_of_lt_of_le h1.2 h2.1⟩⟩

lemma mergeAux_nil (cur : Seg) : mergeAux cur [] = [cur] := rfl

lemma mergeAux_cons (cur nxt : Seg) (rest : List Seg) :
    mergeAux cur (nxt :: rest) =
      if nxt.1 ≤ cur.2 then mergeAux (cur.1, max cur.2 nxt.2) rest
      else cur :: mergeAux nxt rest := rfl

lemma mergeAux_ne_nil : ∀ (l : List Seg) (cur : Seg), mergeAux cur l ≠ [] := by
  intro l
  induction l with
  | nil => intro cur; simp [mergeAux_nil]
  | cons n rest ih =>
      intro cur
      rw [mergeAux_cons]
      split
      · exact ih _
      · simp

lemma mergeAux_head : ∀ (l : List Seg) (cur : Seg),
    ∃ e tl, mergeAux cur l = (cur.1, e) :: tl ∧ cur.2 ≤ e := by
  intro l
  induction l with
  | nil => intro cur; exact ⟨cur.2, [], by simp [mergeAux_nil], le_refl _⟩
  | cons n rest ih =>
      intro cur
      rw [mergeAux_cons]
      by_cases h : n.1 ≤ cur.2
      · rw [if_pos h]
        obtain ⟨e, tl, heq, hle⟩ := ih (cur.1, max cur.2 n.2)
        exact ⟨e, tl, heq, le_trans (le_max_left _ _) hle⟩
      · rw [if_neg h]
        exact ⟨cur.2, mergeAux n rest, by simp, le_refl _⟩

lemma mergeAux_chain : ∀ (l : List Seg) (cur : Seg),
    List.Pairwise startLE l → (∀ x ∈ l, cur.1 ≤ x.1) →
    List.Chain' (fun a b : Seg => a.1 ≤ b.1 ∧ a.2 < b.1) (mergeAux cur l) := by
  intro l
  induction l with
  | nil => intro cur _ _; simp [mergeAux_nil]
  | cons n rest ih =>
      intro cur hp hc
      rw [mergeAux_cons]
      by_cases h : n.1 ≤ cur.2
      · rw [if_pos h]
        exact ih (cur.1, max cur.2 n.2) hp.of_cons
          (fun x hx => hc x (List.mem_cons_of_mem _ hx))
      · rw [if_neg h]
        obtain ⟨e, tl, heq, _⟩ := mergeAux_head rest n
        rw [heq]
        refine List.Chain'.cons ⟨hc n (List.mem_cons_self _ _), lt_of_not_le h⟩ ?_
        rw [← heq]
        exact ih n (List.pairwise_cons.mp hp).2 (List.pairwise_cons.mp hp).1

lemma mergeAux_of_chain : ∀ (l : List Seg) (cur : Seg),
    List.Chain' (fun a b : Seg => a.2 < b.1) (cur :: l) → mergeAux cur l = cur :: l := by
  intro l
  induction l with
  | nil => intro cur _; rfl
  | cons n rest ih =>
      intro cur hch
      rw [mergeAux_cons, if_neg (not_le.mpr (List.chain'_cons.mp hch).1),
        ih n (List.chain'_cons.mp hch).2]

lemma mergeAux_nonneg : ∀ (l : List Seg) (cur : Seg), 0 ≤ cur.1 →
    (∀ x ∈ l, 0 ≤ x.1) → ∀ g ∈ mergeAux cur l, 0 ≤ g.1 := by
  intro l
  induction l with
  | nil => intro cur h0 _ g hg; simp [mergeAux_nil] at hg; simpa [hg] using h0
  | cons n rest ih =>
      intro cur h0 hl g hg
      rw [mergeAux_cons] at hg
      by_cases h : n.1 ≤ cur.2
      · rw [if_pos h] at hg
        exact ih (cur.1, max cur.2 n.2) h0 (fun x hx => hl x (List.mem_cons_of_mem _ hx)) g hg
      · rw [if_neg h] at hg
        rcases List.mem_cons.mp hg with hg | hg
        · simpa [hg] using h0
        · exact ih n (hl n (List.mem_cons_self _ _))
            (fun x hx => hl x (List.mem_cons_of_mem _ hx)) g hg

lemma mergeAux_cover : ∀ (l : List Seg) (cur : Seg),
    List.Pairwise startLE l → (∀ x ∈ l, cur.1 ≤ x.1) →
    ∀ c ∈ cur :: l, ∃ g ∈ mergeAux cur l, g.1 ≤ c.1 ∧ c.2 ≤ g.2 := by
  intro l
  induction l with
  | nil =>
      intro cur _ _ c hc
      rcases List.mem_cons.mp hc with hc | hc
      · exact ⟨cur, by simp [mergeAux_nil], by simp [hc]⟩
      · simp at hc
  | cons n rest ih =>
      intro cur hp hc c hmem
      rw [mergeAux_cons]
      by_cases h : n.1 ≤ cur.2
      · rw [if_pos h]
        have hrest : ∀ x ∈ rest, (cur.1, max cur.2 n.2).1 ≤ x.1 :=
          fun x hx => hc x (List.mem_cons_of_mem _ hx)
        rcases List.mem_cons.mp hmem with hcc | hmem2
        · obtain ⟨g, hg, hg1, hg2⟩ :=
            ih (cur.1, max cur.2 n.2) hp.of_cons hrest _ (List.mem_cons_self _ _)
          exact ⟨g, hg, by simpa [hcc] using hg1,
            by rw [hcc]; exact le_trans (le_trans (le_max_left _ _) hg2) (le_refl _)⟩
        rcases List.mem_cons.mp hmem2 with hcn | hmem3
        · obtain ⟨g, hg, hg1, hg2⟩ :=
            ih (cur.1, max cur.2 n.2) hp.of_cons hrest _ (List.mem_cons_self _ _)
          refine ⟨g, hg, ?_, ?_⟩
          · exact le_trans hg1 (by simpa [hcn] using hc n (List.mem_cons_self _ _))
          · rw [hcn]; exact le_trans (le_max_right _ _) hg2
        · exact ih (cur.1, max cur.2 n.2) hp.of_cons hrest c (List.mem_cons_of_mem _ hmem3)
      · rw [if_neg h]
        rcases List.mem_cons.mp hmem with hcc | hmem2
        · exact ⟨cur, List.mem_cons_self _ _, by simp [hcc]⟩
        · obtain ⟨g, hg, hprop⟩ :=
            ih n (List.pairwise_cons.mp hp).2 (List.pairwise_cons.mp hp).1 c hmem2
          exact ⟨g, List.mem_cons_of_mem _ hg, hprop⟩

lemma mergeAux_union : ∀ (l : List Seg) (cur : Seg),
    List.Pairwise startLE l → (∀ x ∈ l, cur.1 ≤ x.1) → ∀ t : ℚ,
    ((∃ g ∈ mergeAux cur l, inSeg t g) ↔ (inSeg t cur ∨ ∃ c ∈ l, inSeg t c)) := by
  intro l
  induction l with
  | nil => intro cur _ _ t; simp [mergeAux_nil]
  | cons n rest ih =>
      intro cur hp hc t
      rw [mergeAux_cons]
      by_cases h : n.1 ≤ cur.2
      · rw [if_pos h]
        have hcur1n : cur.1 ≤ n.1 := hc n (List.mem_cons_self _ _)
        have hrest : ∀ x ∈ rest, (cur.1, max cur.2 n.2).1 ≤ x.1 :=
          fun x hx => hc x (List.mem_cons_of_mem _ hx)
        rw [ih (cur.1, max cur.2 n.2) hp.of_cons hrest t]
        have hkey : inSeg t (cur.1, max cur.2 n.2) ↔ inSeg t cur ∨ inSeg t n := by
          constructor
          · rintro ⟨h1, h2⟩
            by_cases ht : t ≤ cur.2
            · exact Or.inl ⟨h1, ht⟩
            · refine Or.inr ⟨le_trans h (le_of_not_le ht), ?_⟩
              rcases le_max_iff.mp h2 with h3 | h3
              · exact absurd h3 ht
              · exact h3
          · rintro (⟨h1, h2⟩ | ⟨h1, h2⟩)
            · exact ⟨h1, le_trans h2 (le_max_left _ _)⟩
            · exact ⟨le_trans hcur1n h1, le_trans h2 (le_max_right _ _)⟩
        rw [hkey]
        simp only [List.mem_cons, exists_eq_or_imp]
        tauto
      · rw [if_neg h]
        have := ih n (List.pairwise_cons.mp hp).2 (List.pairwise_cons.mp hp).1 t
        simp only [List.mem_cons, exists_eq_or_imp] at this ⊢
        rw [this]

/-! ### Helper lemmas about the stable sort -/

lemma sortByStart_perm (l : List Seg) : List.Perm (sortByStart l) l :=
  List.perm_insertionSort startLE l

lemma sortByStart_sorted (l : List Seg) : List.Pairwise startLE (sortByStart l) :=
  List.sorted_insertionSort startLE l

lemma sortByStart_eq_of_sorted {l : List Seg} (h : List.Pairwise startLE l) :
    sortByStart l = l :=
  List.Sorted.insertionSort_eq h

lemma filter_orderedInsert (x : Seg) (s : ℚ) : ∀ (m : List Seg),
    (List.orderedInsert startLE x m).filter (fun c => decide (c.1 = s))
      = ((x :: m).filter (fun c => decide (c.1 = s))) := by
  intro m
  induction m with
  | nil => rfl
  | cons b m ih =>
      by_cases hxb : startLE x b
      · rw [List.orderedInsert_of_le _ _ hxb]
      · have hbx : b.1 < x.1 := lt_of_not_le hxb
        have hins : List.orderedInsert startLE x (b :: m)
            = b :: List.orderedInsert startLE x m := by
          simp [List.orderedInsert, hxb]
        rw [hins]
        by_cases hb : b.1 = s
        · have hx : ¬ x.1 = s := by rw [← hb]; exact ne_of_gt hbx
          simp [List.filter_cons, hb, hx, ih]
        · by_cases hx : x.1 = s
          · simp [List.filter_cons, hb, hx, ih]
          · simp [List.filter_cons, hb, hx, ih]

lemma filter_sortByStart (s : ℚ) : ∀ (l : List Seg),
    (sortByStart l).filter (fun c => decide (c.1 = s))
      = l.filter (fun c => decide (c.1 = s)) := by
  intro l
  induction l with
  | nil => rfl
  | cons x l ih =>
      have hsort : sortByStart (x :: l) = List.orderedInsert startLE x (sortByStart l) := by
        simp [sortByStart, List.insertionSort]
      rw [hsort, filter_orderedInsert]
      simp only [List.filter_cons]
      rw [ih]

/-! ### Helper lemmas about the grouping walk -/

lemma groupAux_nil (mg prev cs ce : ℚ) : groupAux mg prev cs ce [] = [(cs, ce)] := rfl

lemma groupAux_cons (mg prev cs ce t : ℚ) (rest : List ℚ) :
    groupAux mg prev cs ce (t :: rest) =
      if t - prev ≤ mg then groupAux mg t cs t rest
      else (cs, ce) :: groupAux mg t t t rest := rfl

lemma groupAux_ne_nil : ∀ (l : List ℚ) (mg prev cs ce : ℚ),
    groupAux mg prev cs ce l ≠ [] := by
  intro l
  induction l with
  | nil => intro mg prev cs ce; simp [groupAux_nil]
  | cons t rest ih =>
      intro mg prev cs ce
      rw [groupAux_cons]
      split
      · exact ih mg t cs t
      · simp

lemma groupAux_setStart : ∀ (l : List ℚ) (mg prev cs cs2 ce : ℚ),
    groupAux mg prev cs ce l = setStart cs (groupAux mg prev cs2 ce l) := by
  intro l
  induction l with
  | nil => intro mg prev cs cs2 ce; simp [groupAux_nil, setStart]
  | cons t rest ih =>
      intro mg prev cs cs2 ce
      rw [groupAux_cons, groupAux_cons]
      by_cases h : t - prev ≤ mg
      · rw [if_pos h, if_pos h]
        exact ih mg t cs cs2 t
      · rw [if_neg h, if_neg h]
        simp [setStart]

lemma groupAux_last : ∀ (l : List ℚ) (mg prev cs ce : ℚ),
    Option.map Prod.snd ((groupAux mg prev cs ce l).getLast?) = (ce :: l).getLast? := by
  intro l
  induction l with
  | nil => intro mg prev cs ce; simp [groupAux_nil]
  | cons t rest ih =>
      intro mg prev cs ce
      rw [groupAux_cons]
      by_cases h : t - prev ≤ mg
      · rw [if_pos h, ih mg t cs t, List.getLast?_cons_cons]
      · rw [if_neg h]
        obtain ⟨g, G, hG⟩ := List.exists_cons_of_ne_nil (groupAux_ne_nil rest mg t t t)
        rw [hG, List.getLast?_cons_cons, ← hG, ih mg t t t, List.getLast?_cons_cons]

/-! ### Helper lemmas about the segment-builder output -/

lemma candidates_nonneg (evs : List Seg) (pre post : ℚ) :
    ∀ x ∈ sortedCandidates evs pre post, 0 ≤ x.1 := by
  intro x hx
  have hx2 : x ∈ evs.map (padSegment pre post) :=
    (sortByStart_perm (evs.map (padSegment pre post))).mem_iff.mp hx
  obtain ⟨ev, _, hev⟩ := List.mem_map.mp hx2
  rw [← hev]
  exact le_max_left _ _

lemma output_chain (evs : List Seg) (pre post : ℚ) :
    List.Chain' (fun a b : Seg => a.1 ≤ b.1 ∧ a.2 < b.1)
      (calculate_and_merge_final_segments evs pre post) := by
  rw [calculate_and_merge_final_segments]
  cases h : sortedCandidates evs pre post with
  | nil => simp [mergeStart]
  | cons c cs =>
      have hs : List.Pairwise startLE (c :: cs) := by
        rw [← h]; exact sortByStart_sorted _
      rw [mergeStart]
      exact mergeAux_chain cs c (List.pairwise_cons.mp hs).2 (List.pairwise_cons.mp hs).1

lemma output_pairwise (evs : List Seg) (pre post : ℚ) :
    List.Pairwise (fun a b : Seg => a.1 ≤ b.1 ∧ a.2 < b.1)
      (calculate_and_merge_final_segments evs pre post) :=
  List.chain'_iff_pairwise.mp (output_chain evs pre post)

lemma output_nonneg (evs : List Seg) (pre post : ℚ) :
    ∀ g ∈ calculate_and_merge_final_segments evs pre post, 0 ≤ g.1 := by
  rw [calculate_and_merge_final_segments]
  cases h : sortedCandidates evs pre post with
  | nil => simp [mergeStart]
  | cons c cs =>
      rw [mergeStart]
      have hnn := candidates_nonneg evs pre post
      rw [h] at hnn
      exact mergeAux_nonneg cs c (hnn c (List.mem_cons_self _ _))
        (fun x hx => hnn x (List.mem_cons_of_mem _ hx))

lemma mergeStart_cons (c : Seg) (cs : List Seg) : mergeStart (c :: cs) = mergeAux c cs := rfl

lemma detect_fold (thr : ℚ) : ∀ (samples : List Sample) (acc : List ℚ),
    samples.foldl (fun acc s => if thr < s.2 then acc ++ [s.1] else acc) acc
      = acc ++ (samples.filter (fun s => decide (thr < s.2))).map Prod.fst := by
  intro samples
  induction samples with
  | nil => intro acc; simp
  | cons s rest ih =>
      intro acc
      by_cases h : thr < s.2
      · simp [List.foldl_cons, h, ih, List.filter_cons]
      · simp [List.foldl_cons, h, ih, List.filter_cons]

/-- The order claimed by the spec for the sort step: ascending by start with
ties broken by ascending end. -/
def sortedByStartThenEnd (l : List Seg) : Prop :=
  List.Pairwise (fun a b : Seg => a.1 < b.1 ∨ (a.1 = b.1 ∧ a.2 ≤ b.2)) l

/-! ### Claim theorems -/

/-- C6: the Threshold Filter's output is exactly the subsequence of
timestamps whose brightness is strictly greater than the configured
threshold, in input order, with no insertions or omissions; equality with the
threshold is excluded. -/
theorem c6_threshold_filter_exact (thr : ℚ) (samples : List Sample) :
    detect_bright_frames thr samples
      = (samples.filter (fun s => decide (thr < s.2))).map Prod.fst ∧
    List.Sublist (detect_bright_frames thr samples) (samples.map Prod.fst) ∧
    (∀ ts : ℚ, detect_bright_frames thr [(ts, thr)] = []) := by
  have h := detect_fold thr samples []
  have heq : detect_bright_frames thr samples
      = (samples.filter (fun s => decide (thr < s.2))).map Prod.fst := by
    simpa [detect_bright_frames] using h
  refine ⟨heq, ?_, ?_⟩
  · rw [heq]
    exact List.Sublist.map Prod.fst (List.filter_sublist samples)
  · intro ts
    simp [detect_bright_frames]

/-- C7: the padding step produces `(max(0, start - preRoll), end + postRoll)`;
a candidate's start, and hence every output segment start, is never negative;
Event `(0.2, 0.3)` with `preRoll = 1.0` pads to start exactly `0`. -/
theorem c7_padding_clamp (pre post : ℚ) (ev : Seg) (evs : List Seg)
    (h1 : 0 ≤ pre) (h2 : 0 ≤ post) :
    padSegment pre post ev = (max 0 (ev.1 - pre), ev.2 + post) ∧
    0 ≤ (padSegment pre post ev).1 ∧
    (∀ g ∈ calculate_and_merge_final_segments evs pre post, 0 ≤ g.1) ∧
    padSegment 1 1 (1/5, 3/10) = (0, 13/10) := by
  refine ⟨rfl, le_max_left _ _, output_nonneg evs pre post, ?_⟩
  norm_num [padSegment]

/-- C7 witness: the theorem applied at `preRoll = 1/2`, `postRoll = 1`,
event `(2, 3)`. -/
theorem c7_witness :
    (0:ℚ) ≤ 1/2 ∧ (0:ℚ) ≤ 1 ∧ 0 ≤ (padSegment (1/2) 1 (2, 3)).1 :=
  ⟨by norm_num, by norm_num,
    (c7_padding_clamp (1/2) 1 (2, 3) [] (by norm_num) (by norm_num)).2.1⟩

/-- C4: contrary to the claim, nothing validates the frame rate: with the
non-positive frame rate `-25` the grouper runs to completion on the bright
timestamps `[0, 1]` (computing `maxGap = -3/50`) and returns two events, with
no configuration error before or during grouping. -/
theorem c4_grouping_runs_with_negative_framerate :
    group_continuous_frames [0, 1] (-25) = [(0, 0), (1, 1)] := by
  norm_num [group_continuous_frames, groupAux]

/-- C3 counterexample: the sort step orders by start only and is stable, so
for the events `[(1,5), (1,2)]` with zero padding the sorted candidates are
`[(1,5), (1,2)]` — not ascending by end among equal starts — and the reversed
input, with the same multiset of candidates, sorts to a different list. -/
theorem c3_counterexample :
    ¬ sortedByStartThenEnd (sortedCandidates [(1, 5), (1, 2)] 0 0) ∧
    List.Perm (([(1, 5), (1, 2)] : List Seg).map (padSegment 0 0))
      (([(1, 2), (1, 5)] : List Seg).map (padSegment 0 0)) ∧
    sortedCandidates [(1, 5), (1, 2)] 0 0 ≠ sortedCandidates [(1, 2), (1, 5)] 0 0 := by
  have e1 : sortedCandidates [(1, 5), (1, 2)] 0 0 = [(1, 5), (1, 2)] := by
    norm_num [sortedCandidates, sortByStart, padSegment, List.insertionSort,
      List.orderedInsert]
  have e2 : sortedCandidates [(1, 2), (1, 5)] 0 0 = [(1, 2), (1, 5)] := by
    norm_num [sortedCandidates, sortByStart, padSegment, List.insertionSort,
      List.orderedInsert]
  have m1 : (([(1, 5), (1, 2)] : List Seg)).map (padSegment 0 0) = [(1, 5), (1, 2)] := by
    norm_num [padSegment]
  have m2 : (([(1, 2), (1, 5)] : List Seg)).map (padSegment 0 0) = [(1, 2), (1, 5)] := by
    norm_num [padSegment]
  refine ⟨?_, ?_, ?_⟩
  · rw [e1, sortedByStartThenEnd]
    intro hpw
    have := (List.pairwise_cons.mp hpw).1 (1, 2) (List.mem_cons_self _ _)
    norm_num at this
  · rw [m1, m2]
    exact List.Perm.swap _ _ _
  · rw [e1, e2]
    intro hcontra
    have := List.head_eq_of_cons_eq hcontra
    norm_num at this

/-- C3 amended: the sort step orders candidates ascending by start only,
stably — it permutes the padded candidates, and for every start value the
equal-start candidates appear in their original input order (not by ascending
end); the order for equal starts therefore depends on the input order, not
only on the multiset of candidates. -/
theorem c3_amended_stable_sort (evs : List Seg) (pre post : ℚ) :
    List.Pairwise startLE (sortedCandidates evs pre post) ∧
    List.Perm (sortedCandidates evs pre post) (evs.map (padSegment pre post)) ∧
    (∀ s : ℚ, (sortedCandidates evs pre post).filter (fun c => decide (c.1 = s))
      = (evs.map (padSegment pre post)).filter (fun c => decide (c.1 = s))) :=
  ⟨sortByStart_sorted _, sortByStart_perm _, fun s => filter_sortByStart s _⟩

/-- C2: a candidate `(s, e)` is absorbed into the running segment exactly
when `s ≤ currentEnd`, making the running end `max(currentEnd, e)`; otherwise
the running segment is emitted and the sweep restarts; on empty remainder the
running segment is emitted; and two events whose padded forms touch at
`end == start` merge into a single output segment. -/
theorem c2_merge_sweep_rule (cs ce s e pre post : ℚ) (rest : List Seg) (ev1 ev2 : Seg) :
    (s ≤ ce → mergeAux (cs, ce) ((s, e) :: rest) = mergeAux (cs, max ce e) rest) ∧
    (ce < s → mergeAux (cs, ce) ((s, e) :: rest) = (cs, ce) :: mergeAux (s, e) rest) ∧
    mergeAux (cs, ce) [] = [(cs, ce)] ∧
    ((padSegment pre post ev1).1 ≤ (padSegment pre post ev2).1 →
      (padSegment pre post ev2).1 = (padSegment pre post ev1).2 →
      calculate_and_merge_final_segments [ev1, ev2] pre post
        = [((padSegment pre post ev1).1,
            max (padSegment pre post ev1).2 (padSegment pre post ev2).2)]) := by
  refine ⟨?_, ?_, rfl, ?_⟩
  · intro h
    rw [mergeAux_cons, if_pos (show ((s, e) : Seg).1 ≤ ((cs, ce) : Seg).2 from h)]
  · intro h
    rw [mergeAux_cons,
      if_neg (show ¬ ((s, e) : Seg).1 ≤ ((cs, ce) : Seg).2 from not_le.mpr h)]
  · intro h1 h2
    have hsort : sortedCandidates [ev1, ev2] pre post
        = [padSegment pre post ev1, padSegment pre post ev2] := by
      simp only [sortedCandidates, List.map]
      simp [sortByStart, List.insertionSort, List.orderedInsert, h1]
    rw [calculate_and_merge_final_segments, hsort, mergeStart_cons, mergeAux_cons,
      if_pos (le_of_eq h2), mergeAux_nil]

/-- C2 witness: the three sweep rules and the touching-merge conclusion at
concrete inputs. -/
theorem c2_witness :
    mergeAux (0, 2) [(1, 5)] = mergeAux (0, max 2 5) [] ∧
    mergeAux (0, 2) [(5, 6)] = (0, 2) :: mergeAux (5, 6) [] ∧
    calculate_and_merge_final_segments [(1, 2), (3, 4)] 0 1
      = [((padSegment 0 1 (1, 2)).1,
          max (padSegment 0 1 (1, 2)).2 (padSegment 0 1 (3, 4)).2)] :=
  ⟨(c2_merge_sweep_rule 0 2 1 5 0 1 [] (1, 2) (3, 4)).1 (by norm_num),
    (c2_merge_sweep_rule 0 2 5 6 0 1 [] (1, 2) (3, 4)).2.1 (by norm_num),
    (c2_merge_sweep_rule 0 2 1 5 0 1 [] (1, 2) (3, 4)).2.2.2
      (by norm_num [padSegment]) (by norm_num [padSegment])⟩

/-- C5: the Segment Builder's output is sorted ascending by start, adjacent
segments satisfy the strict `end < next start`, and the segments are pairwise
non-overlapping as closed intervals. -/
theorem c5_output_sorted_disjoint (evs : List Seg) (pre post : ℚ)
    (h1 : 0 ≤ pre) (h2 : 0 ≤ post) :
    List.Pairwise startLE (calculate_and_merge_final_segments evs pre post) ∧
    List.Chain' (fun a b : Seg => a.2 < b.1)
      (calculate_and_merge_final_segments evs pre post) ∧
    List.Pairwise (fun a b : Seg => ∀ t : ℚ, ¬ (inSeg t a ∧ inSeg t b))
      (calculate_and_merge_final_segments evs pre post) := by
  have hch := output_chain evs pre post
  have hpw := output_pairwise evs pre post
  refine ⟨hpw.imp (fun h => h.1), hch.imp (fun _ _ h => h.2), hpw.imp ?_⟩
  intro a b h t hin
  exact absurd (lt_of_le_of_lt hin.1.2 (lt_of_lt_of_le h.2 hin.2.1)) (lt_irrefl t)

/-- C5 witness: the theorem applied at the event list `[(1, 2)]` with zero
padding. -/
theorem c5_witness :
    (0:ℚ) ≤ 0 ∧
    List.Pairwise startLE (calculate_and_merge_final_segments [(1, 2)] 0 0) :=
  ⟨le_refl 0, (c5_output_sorted_disjoint [(1, 2)] 0 0 (le_refl 0) (le_refl 0)).1⟩

/-- C8: every input event's padded interval is fully contained in some single
output segment. -/
theorem c8_padded_containment (evs : List Seg) (pre post : ℚ)
    (h1 : 0 ≤ pre) (h2 : 0 ≤ post) :
    ∀ ev ∈ evs, ∃ g ∈ calculate_and_merge_final_segments evs pre post,
      g.1 ≤ (padSegment pre post ev).1 ∧ (padSegment pre post ev).2 ≤ g.2 := by
  intro ev hev
  have hmem : padSegment pre post ev ∈ sortedCandidates evs pre post :=
    (sortByStart_perm _).mem_iff.mpr (List.mem_map_of_mem _ hev)
  rw [calculate_and_merge_final_segments]
  cases hsc : sortedCandidates evs pre post with
  | nil => rw [hsc] at hmem; simp at hmem
  | cons c cs =>
      rw [mergeStart_cons]
      have hs : List.Pairwise startLE (c :: cs) := by
        rw [← hsc]; exact sortByStart_sorted _
      rw [hsc] at hmem
      exact mergeAux_cover cs c (List.pairwise_cons.mp hs).2
        (List.pairwise_cons.mp hs).1 _ hmem

/-- C8 witness: the theorem applied at the event list `[(1, 2)]` with zero
padding. -/
theorem c8_witness :
    (0:ℚ) ≤ 0 ∧
    ∃ g ∈ calculate_and_merge_final_segments [(1, 2)] 0 0,
      g.1 ≤ (padSegment 0 0 (1, 2)).1 ∧ (padSegment 0 0 (1, 2)).2 ≤ g.2 :=
  ⟨le_refl 0, c8_padded_containment [(1, 2)] 0 0 (le_refl 0) (le_refl 0) (1, 2)
    (List.mem_cons_self _ _)⟩

/-- C9: feeding the Segment Builder its own output back with zero padding
returns that output unchanged. -/
theorem c9_idempotent (evs : List Seg) (pre post : ℚ)
    (h1 : 0 ≤ pre) (h2 : 0 ≤ post) :
    calculate_and_merge_final_segments
        (calculate_and_merge_final_segments evs pre post) 0 0
      = calculate_and_merge_final_segments evs pre post := by
  have hnn := output_nonneg evs pre post
  have hch := output_chain evs pre post
  have hmap : (calculate_and_merge_final_segments evs pre post).map (padSegment 0 0)
      = calculate_and_merge_final_segments evs pre post := by
    have hfix : ∀ g ∈ calculate_and_merge_final_segments evs pre post,
        padSegment 0 0 g = g := by
      intro g hg
      have h0 := hnn g hg
      simp [padSegment, max_eq_right h0]
    rw [List.map_congr_left hfix]
    exact List.map_id' _
  have hsorted : List.Pairwise startLE (calculate_and_merge_final_segments evs pre post) :=
    (output_pairwise evs pre post).imp (fun h => h.1)
  rw [calculate_and_merge_final_segments, sortedCandidates, hmap,
    sortByStart_eq_of_sorted hsorted]
  cases hco : calculate_and_merge_final_segments evs pre post with
  | nil => rfl
  | cons c cl =>
      rw [mergeStart_cons]
      apply mergeAux_of_chain
      rw [← hco]
      exact hch.imp (fun _ _ h => h.2)

/-- C9 witness: the theorem applied at the event list `[(1, 2), (10, 11)]`
with padding `1/2` and `1`. -/
theorem c9_witness :
    (0:ℚ) ≤ 1/2 ∧ (0:ℚ) ≤ 1 ∧
    calculate_and_merge_final_segments
        (calculate_and_merge_final_segments [(1, 2), (10, 11)] (1/2) 1) 0 0
      = calculate_and_merge_final_segments [(1, 2), (10, 11)] (1/2) 1 :=
  ⟨by norm_num, by norm_num,
    c9_idempotent [(1, 2), (10, 11)] (1/2) 1 (by norm_num) (by norm_num)⟩

/-- C10: a time point lies in some output segment exactly when it lies in
some padded candidate interval: merging neither drops nor adds covered time
points. -/
theorem c10_union_exact (evs : List Seg) (pre post : ℚ)
    (hval : ∀ ev ∈ evs, ev.1 ≤ ev.2) (h1 : 0 ≤ pre) (h2 : 0 ≤ post) :
    ∀ t : ℚ, ((∃ g ∈ calculate_and_merge_final_segments evs pre post, inSeg t g)
      ↔ (∃ c ∈ evs.map (padSegment pre post), inSeg t c)) := by
  intro t
  have hperm := sortByStart_perm (evs.map (padSegment pre post))
  have hiff : (∃ c ∈ evs.map (padSegment pre post), inSeg t c)
      ↔ (∃ c ∈ sortedCandidates evs pre post, inSeg t c) := by
    constructor
    · rintro ⟨c, hc, hin⟩; exact ⟨c, hperm.mem_iff.mpr hc, hin⟩
    · rintro ⟨c, hc, hin⟩; exact ⟨c, hperm.mem_iff.mp hc, hin⟩
  rw [hiff, calculate_and_merge_final_segments]
  cases hsc : sortedCandidates evs pre post with
  | nil => simp [mergeStart]
  | cons c cl =>
      have hs : List.Pairwise startLE (c :: cl) := by
        rw [← hsc]; exact sortByStart_sorted _
      rw [mergeStart_cons,
        mergeAux_union cl c (List.pairwise_cons.mp hs).2 (List.pairwise_cons.mp hs).1 t]
      simp [List.mem_cons]

/-- C10 witness: the theorem applied at the event list `[(0, 1)]` with zero
padding, at time point `0`. -/
theorem c10_witness :
    ((∃ g ∈ calculate_and_merge_final_segments [((0:ℚ), (1:ℚ))] 0 0, inSeg 0 g)
      ↔ (∃ c ∈ ([((0:ℚ), (1:ℚ))] : List Seg).map (padSegment 0 0), inSeg 0 c)) :=
  c10_union_exact [(0, 1)] 0 0 (by norm_num) (le_refl 0) (le_refl 0) 0

/-- C1: the grouper walks the timestamps once: a single timestamp yields one
degenerate event; when the next timestamp is within `maxGap = 1.5/frameRate`
of the previous one it extends the current event (the grouping of the tail
with its first event's start replaced); when the gap exceeds `maxGap` it
closes `(t0, t0)` and continues; and for a non-empty input the final open
event is emitted, ending at the last timestamp. -/
theorem c1_event_grouper_walk (fr t t0 t1 : ℚ) (rest ts : List ℚ) (hfr : 0 < fr) :
    group_continuous_frames [t] fr = [(t, t)] ∧
    (t1 - t0 ≤ 3 / 2 / fr →
      group_continuous_frames (t0 :: t1 :: rest) fr
        = setStart t0 (group_continuous_frames (t1 :: rest) fr)) ∧
    (3 / 2 / fr < t1 - t0 →
      group_continuous_frames (t0 :: t1 :: rest) fr
        = (t0, t0) :: group_continuous_frames (t1 :: rest) fr) ∧
    (ts ≠ [] → group_continuous_frames ts fr ≠ [] ∧
      Option.map Prod.snd ((group_continuous_frames ts fr).getLast?) = ts.getLast?) := by
  refine ⟨rfl, ?_, ?_, ?_⟩
  · intro h
    show groupAux (3 / 2 / fr) t0 t0 t0 (t1 :: rest)
      = setStart t0 (groupAux (3 / 2 / fr) t1 t1 t1 rest)
    rw [groupAux_cons, if_pos h]
    exact groupAux_setStart rest (3 / 2 / fr) t1 t0 t1 t1
  · intro h
    show groupAux (3 / 2 / fr) t0 t0 t0 (t1 :: rest)
      = (t0, t0) :: groupAux (3 / 2 / fr) t1 t1 t1 rest
    rw [groupAux_cons, if_neg (not_le.mpr h)]
  · intro hne
    obtain ⟨a, as, rfl⟩ := List.exists_cons_of_ne_nil hne
    exact ⟨groupAux_ne_nil as (3 / 2 / fr) a a a,
      groupAux_last as (3 / 2 / fr) a a a⟩

/-- C1 witness: the grouper at frame rate 25 (`maxGap = 3/50`): a singleton,
an extension within the gap, a split beyond the gap, and emission of the
final event. -/
theorem c1_witness :
    group_continuous_frames [10] 25 = [(10, 10)] ∧
    group_continuous_frames [10, 251/25] 25
      = setStart 10 (group_continuous_frames [251/25] 25) ∧
    group_continuous_frames [10, 20] 25 = (10, 10) :: group_continuous_frames [20] 25 ∧
    (group_continuous_frames [10, 251/25] 25 ≠ [] ∧
      Option.map Prod.snd ((group_continuous_frames [10, 251/25] 25).getLast?)
        = ([10, 251/25] : List ℚ).getLast?) :=
  ⟨(c1_event_grouper_walk 25 10 10 (251/25) [] [10] (by norm_num)).1,
    (c1_event_grouper_walk 25 10 10 (251/25) [] [10] (by norm_num)).2.1 (by norm_num),
    (c1_event_grouper_walk 25 10 10 20 [] [10] (by norm_num)).2.2.1 (by norm_num),
    (c1_event_grouper_walk 25 10 10 20 [] [10, 251/25] (by norm_num)).2.2.2 (by simp)⟩

end LightningTrimmer
